import Mathlib

/-!
Verification of the rigid multi-blob Metropolis MCMC sampler and its
pairwise/wall energy evaluator.

The definitions below are a shallow embedding of the program:
* `one_blob_potential`, `blob_blob_potential`, `potential_from_position_blobs`,
  `blobs_potential`, `compute_total_energy` embed the CUDA energy kernel of
  `many_bodyMCMC/many_body_potential_pycuda.py` (machine doubles are modelled
  as real numbers; the flat coordinate buffer is modelled as a list of
  3-vectors read through `List.getD`, matching `x[3*i + c]`).
* `propose_bodies`, `proposal_r_vectors`, `commit`, `mcmcStep` embed one
  iteration of the Markov-chain loop of `many_bodyMCMC/many_body_MCMC.py`
  (lines 114-139); the per-body random draws and the uniform acceptance draw
  are explicit arguments.
* `spec_one_blob_term`, `pair_energy`, `spec_total_energy` follow the
  specification's words for the total-energy decomposition (one-blob terms
  plus unordered-pair terms) and are compared with the kernel's result.
-/

/-- A 3-vector of reals, modelling one blob coordinate `(x, y, z)`. -/
structure Vec3 where
  x : ℝ
  y : ℝ
  z : ℝ

instance : Inhabited Vec3 := ⟨⟨0, 0, 0⟩⟩

instance : Add Vec3 := ⟨fun a b => ⟨a.x + b.x, a.y + b.y, a.z + b.z⟩⟩

theorem Vec3.add_def (a b : Vec3) : a + b = ⟨a.x + b.x, a.y + b.y, a.z + b.z⟩ := rfl

/-- A quaternion `(w, x, y, z)`; the program stores body orientations as
unit quaternions. -/
structure Quat where
  w : ℝ
  x : ℝ
  y : ℝ
  z : ℝ

/-- Modelled from the spec: quaternion composition (`quaternion.py` is not
part of the given sources).  The proposal left-composes a small rotation onto
the current orientation with the Hamilton product. -/
def Quat.mul (a b : Quat) : Quat :=
  ⟨a.w * b.w - a.x * b.x - a.y * b.y - a.z * b.z,
   a.w * b.x + a.x * b.w + a.y * b.z - a.z * b.y,
   a.w * b.y - a.x * b.z + a.y * b.w + a.z * b.x,
   a.w * b.z + a.x * b.y - a.y * b.x + a.z * b.w⟩

instance : Mul Quat := ⟨Quat.mul⟩

theorem Quat.mul_def (a b : Quat) :
    a * b =
      ⟨a.w * b.w - a.x * b.x - a.y * b.y - a.z * b.z,
       a.w * b.x + a.x * b.w + a.y * b.z - a.z * b.y,
       a.w * b.y - a.x * b.z + a.y * b.w + a.z * b.x,
       a.w * b.z + a.x * b.y - a.y * b.x + a.z * b.w⟩ := rfl

/-- Modelled from the spec: rotation of a body-frame offset by a unit
quaternion's rotation matrix (`body.py` is not part of the given sources;
the spec states `blob lab coordinates = location + rotate(orientation,
reference_offset)`).  This is the standard unit-quaternion rotation
`(w² - u·u) v + 2 (u·v) u + 2 w (u × v)`. -/
def rotate (q : Quat) (v : Vec3) : Vec3 :=
  let t := q.w * q.w - (q.x * q.x + q.y * q.y + q.z * q.z)
  let d := q.x * v.x + q.y * v.y + q.z * v.z
  ⟨t * v.x + 2 * d * q.x + 2 * q.w * (q.y * v.z - q.z * v.y),
   t * v.y + 2 * d * q.y + 2 * q.w * (q.z * v.x - q.x * v.z),
   t * v.z + 2 * d * q.z + 2 * q.w * (q.x * v.y - q.y * v.x)⟩

/-- The simulation parameters received by the energy kernel
(`potential_from_position_blobs` arguments plus `kT` from the main loop). -/
structure Params where
  kT : ℝ
  Lx : ℝ
  Ly : ℝ
  debye_length_wall : ℝ
  eps_wall : ℝ
  debye_length : ℝ
  eps : ℝ
  weight : ℝ
  blob_radius : ℝ

/-- The C cast `int(v)` of a double: truncation toward zero. -/
noncomputable def trunc (v : ℝ) : ℤ := if 0 ≤ v then ⌊v⌋ else ⌈v⌉

/-- The kernel's sign factor `int(r > 0) - int(r < 0)`. -/
noncomputable def sgn (v : ℝ) : ℝ := (if 0 < v then 1 else 0) - (if v < 0 then 1 else 0)

/-- The kernel's minimum-image wrap of one displacement component
(`many_body_potential_pycuda.py` lines 91-96):
`if (L > 0) { r = r - int(r/L + 0.5*(int(r>0) - int(r<0))) * L; }`. -/
noncomputable def wrap (L r : ℝ) : ℝ :=
  if 0 < L then r - (trunc (r / L + 0.5 * sgn r) : ℝ) * L else r

/-- `one_blob_potential` of the kernel: gravity plus screened wall
repulsion (lines 14-29).  `rx` and `ry` are received but unused, as in the
source. -/
noncomputable def one_blob_potential (p : Params) (rx ry rz : ℝ) : ℝ :=
  p.weight * rz +
    p.eps_wall * p.blob_radius * Real.exp (-(rz - p.blob_radius) / p.debye_length_wall)
      / (rz - p.blob_radius)

/-- `blob_blob_potential` of the kernel (lines 34-48): for `i ≠ j` it adds
`eps * exp(-r/debye_length) / r` with `r = sqrt(rx² + ry² + rz²)`; for
`i = j` it adds nothing. -/
noncomputable def blob_blob_potential (p : Params) (rx ry rz : ℝ) (i j : ℕ) : ℝ :=
  if i ≠ j then
    p.eps * Real.exp (-(Real.sqrt (rx * rx + ry * ry + rz * rz)) / p.debye_length)
      / Real.sqrt (rx * rx + ry * ry + rz * rz)
  else 0

/-- One iteration of the pair loop body (kernel lines 85-99): displacement
of blobs `i` and `j`, minimum-image wrapped on x and y only, fed to
`blob_blob_potential`. -/
noncomputable def pair_term (p : Params) (xf : ℕ → Vec3) (i j : ℕ) : ℝ :=
  blob_blob_potential p
    (wrap p.Lx ((xf i).x - (xf j).x))
    (wrap p.Ly ((xf i).y - (xf j).y))
    ((xf i).z - (xf j).z) i j

/-- The per-thread slot value `total_U[i]` written by the kernel
`potential_from_position_blobs` (lines 54-111): above the wall it is the
one-blob term plus the pair terms over `j = i+1, …, n_blobs-1`; at or below
the wall it is the steep penalty `1e5 * (-(z - blob_radius) + 1)`. -/
noncomputable def potential_from_position_blobs (p : Params) (n : ℕ) (xf : ℕ → Vec3) (i : ℕ) : ℝ :=
  if p.blob_radius < (xf i).z then
    one_blob_potential p (xf i).x (xf i).y (xf i).z +
      ∑ j ∈ Finset.Ico (i + 1) n, pair_term p xf i j
  else
    1e5 * (-((xf i).z - p.blob_radius) + 1)

/-- The reduction `np.sum(U)` over the kernel's independent output slots. -/
noncomputable def totalU (p : Params) (n : ℕ) (xf : ℕ → Vec3) : ℝ :=
  ∑ i ∈ Finset.range n, potential_from_position_blobs p n xf i

/-- `blobs_potential` of `many_body_potential_pycuda.py` (lines 134-183):
launch the kernel on the flat coordinate buffer and sum the slots. -/
noncomputable def blobs_potential (p : Params) (r_vectors : List Vec3) : ℝ :=
  totalU p r_vectors.length (fun k => r_vectors.getD k default)

/-- `compute_total_energy` (lines 188-202): `u_blobs + u_bodies` with
`u_bodies = 0.0`. -/
noncomputable def compute_total_energy (p : Params) (r_vectors : List Vec3) : ℝ :=
  blobs_potential p r_vectors + 0

/-- C2: a blob at height `z ≤ blob_radius` (including exact equality) takes
the penalty branch: its slot equals `1e5 * (-(z - blob_radius) + 1)`, an
expression with no division by `z - blob_radius`; at `z = blob_radius`
exactly the slot is `1e5`. -/
theorem C2_wall_penalty_branch (p : Params) (n : ℕ) (xf : ℕ → Vec3) (i : ℕ)
    (hi : i < n) (h : (xf i).z ≤ p.blob_radius) :
    potential_from_position_blobs p n xf i = 1e5 * (-((xf i).z - p.blob_radius) + 1) ∧
      ((xf i).z = p.blob_radius → potential_from_position_blobs p n xf i = 1e5) := by
  have hbranch : potential_from_position_blobs p n xf i
      = 1e5 * (-((xf i).z - p.blob_radius) + 1) := by
    unfold potential_from_position_blobs
    rw [if_neg (not_lt.mpr h)]
  refine ⟨hbranch, fun heq => ?_⟩
  rw [hbranch, heq]
  ring

theorem C2_witness :
    potential_from_position_blobs
      { kT := 1, Lx := 0, Ly := 0, debye_length_wall := 1, eps_wall := 1,
        debye_length := 1, eps := 1, weight := 1, blob_radius := 1 }
      1 (fun _ => ⟨0, 0, 1⟩) 0 = 1e5 :=
  (C2_wall_penalty_branch _ 1 _ 0 (by norm_num) (by norm_num)).2 (by norm_num)

/-- A rigid body as mutated by the Markov-chain loop: fixed reference
configuration, current (accepted) pose, and the scratch proposed pose
`location_new` / `orientation_new`. -/
structure Body where
  ref_config : List Vec3
  location : Vec3
  orientation : Quat
  location_new : Vec3
  orientation_new : Quat

/-- Modelled from the spec: `body.get_r_vectors(location, orientation)`
(`body.py` is not part of the given sources): the lab-frame blob positions
for the supplied pose, `location + rotate(orientation, reference_offset)`
for each reference offset. -/
def Body.get_r_vectors (b : Body) (loc : Vec3) (q : Quat) : List Vec3 :=
  b.ref_config.map (fun o => loc + rotate q o)

/-- `get_blobs_r_vectors` of `many_body_MCMC.py` (lines 15-25): the flat
buffer of every body's blob positions at its current pose, in body order. -/
def get_blobs_r_vectors : List Body → List Vec3
  | [] => []
  | b :: bs => b.get_r_vectors b.location b.orientation ++ get_blobs_r_vectors bs

/-- The mutable state of the Markov chain held by the main loop. -/
structure ChainState where
  bodies : List Body
  sample_r_vectors : List Vec3
  current_energy : ℝ
  accepted_moves : ℕ

/-- The proposal phase of one step (lines 116-119): each body's
`location_new` becomes `location` plus its random translation and its
`orientation_new` becomes the random small rotation composed onto
`orientation`.  `draws i` is body `i`'s pair of random draws. -/
def propose_bodies (draws : ℕ → Vec3 × Quat) : ℕ → List Body → List Body
  | _, [] => []
  | i, b :: bs =>
      { b with location_new := b.location + (draws i).1,
               orientation_new := (draws i).2 * b.orientation } :: propose_bodies draws (i + 1) bs

/-- The wholesale rebuild of `sample_r_vectors` from the proposed poses
(line 120): body `i`'s slice of the flat buffer is
`body.get_r_vectors(body.location_new, body.orientation_new)`. -/
def proposal_r_vectors : List Body → List Vec3
  | [] => []
  | b :: bs => b.get_r_vectors b.location_new b.orientation_new ++ proposal_r_vectors bs

/-- The commit of an accepted proposal (lines 138-139):
`body.location, body.orientation = body.location_new, body.orientation_new`
for every body. -/
def commit : List Body → List Body :=
  List.map (fun b => { b with location := b.location_new, orientation := b.orientation_new })

/-- One step of the Markov chain (lines 114-139): propose every body's new
pose, rebuild the blob buffer, evaluate the candidate energy, and accept
iff the uniform draw `u` satisfies
`u < exp(-(sample_state_energy - current_state_energy) / kT)`. -/
noncomputable def mcmcStep (p : Params) (draws : ℕ → Vec3 × Quat) (u : ℝ)
    (s : ChainState) : ChainState :=
  let bodies2 := propose_bodies draws 0 s.bodies
  let buf := proposal_r_vectors bodies2
  let sample_state_energy := compute_total_energy p buf
  if u < Real.exp (-(sample_state_energy - s.current_energy) / p.kT) then
    { bodies := commit bodies2,
      sample_r_vectors := buf,
      current_energy := sample_state_energy,
      accepted_moves := s.accepted_moves + 1 }
  else
    { bodies := bodies2,
      sample_r_vectors := buf,
      current_energy := s.current_energy,
      accepted_moves := s.accepted_moves }

/-- The candidate energy evaluated during one step: the energy of the
buffer rebuilt from the proposed poses. -/
noncomputable def proposed_energy (p : Params) (draws : ℕ → Vec3 × Quat) (s : ChainState) : ℝ :=
  compute_total_energy p (proposal_r_vectors (propose_bodies draws 0 s.bodies))

theorem mcmcStep_accept (p : Params) (draws : ℕ → Vec3 × Quat) (u : ℝ) (s : ChainState)
    (hc : u < Real.exp (-(proposed_energy p draws s - s.current_energy) / p.kT)) :
    mcmcStep p draws u s =
      { bodies := commit (propose_bodies draws 0 s.bodies),
        sample_r_vectors := proposal_r_vectors (propose_bodies draws 0 s.bodies),
        current_energy := proposed_energy p draws s,
        accepted_moves := s.accepted_moves + 1 } := by
  simp only [mcmcStep, proposed_energy] at hc ⊢
  rw [if_pos hc]

theorem mcmcStep_reject (p : Params) (draws : ℕ → Vec3 × Quat) (u : ℝ) (s : ChainState)
    (hc : ¬ u < Real.exp (-(proposed_energy p draws s - s.current_energy) / p.kT)) :
    mcmcStep p draws u s =
      { bodies := propose_bodies draws 0 s.bodies,
        sample_r_vectors := proposal_r_vectors (propose_bodies draws 0 s.bodies),
        current_energy := s.current_energy,
        accepted_moves := s.accepted_moves } := by
  simp only [mcmcStep, proposed_energy] at hc ⊢
  rw [if_neg hc]

theorem propose_preserves_pose (draws : ℕ → Vec3 × Quat) :
    ∀ (i0 : ℕ) (bs : List Body),
      (propose_bodies draws i0 bs).map (fun b => (b.location, b.orientation)) =
        bs.map (fun b => (b.location, b.orientation)) := by
  intro i0 bs
  induction bs generalizing i0 with
  | nil => rfl
  | cons b t ih => simp [propose_bodies, ih]

theorem get_blobs_commit (bs : List Body) :
    get_blobs_r_vectors (commit bs) = proposal_r_vectors bs := by
  induction bs with
  | nil => rfl
  | cons b t ih =>
      simp only [commit, List.map_cons, get_blobs_r_vectors, proposal_r_vectors] at ih ⊢
      rw [ih]
      rfl

/-- C1: one MCMC step accepts (commits the proposal and increments
`accepted_moves`) iff the uniform draw `u` satisfies
`u < exp(-(candidate_energy - current_energy)/kT)`; consequently for
`kT > 0`, any draw `u ∈ [0,1)` and any candidate with energy at most the
current energy, the step accepts with certainty. -/
theorem C1_metropolis_acceptance (p : Params) (draws : ℕ → Vec3 × Quat) (u : ℝ)
    (s : ChainState) :
    ((mcmcStep p draws u s).accepted_moves = s.accepted_moves + 1 ↔
        u < Real.exp (-(proposed_energy p draws s - s.current_energy) / p.kT)) ∧
      (0 < p.kT → 0 ≤ u → u < 1 → proposed_energy p draws s ≤ s.current_energy →
        (mcmcStep p draws u s).accepted_moves = s.accepted_moves + 1) := by
  by_cases hc : u < Real.exp (-(proposed_energy p draws s - s.current_energy) / p.kT)
  · rw [mcmcStep_accept p draws u s hc]
    exact ⟨iff_of_true rfl hc, fun _ _ _ _ => rfl⟩
  · rw [mcmcStep_reject p draws u s hc]
    refine ⟨iff_of_false (by simp) hc, fun hkT hu0 hu1 hle => absurd ?_ hc⟩
    have hexp : 0 ≤ -(proposed_energy p draws s - s.current_energy) / p.kT :=
      div_nonneg (by linarith) hkT.le
    have h1 : 1 ≤ Real.exp (-(proposed_energy p draws s - s.current_energy) / p.kT) := by
      have := Real.add_one_le_exp (-(proposed_energy p draws s - s.current_energy) / p.kT)
      linarith
    linarith

theorem C1_witness :
    (mcmcStep
      { kT := 1, Lx := 0, Ly := 0, debye_length_wall := 1, eps_wall := 0,
        debye_length := 1, eps := 0, weight := 1, blob_radius := 1 }
      (fun _ => (⟨0, 0, 0⟩, ⟨1, 0, 0, 0⟩)) (1/2)
      { bodies := [], sample_r_vectors := [], current_energy := 0,
        accepted_moves := 0 }).accepted_moves = 0 + 1 := by
  refine (C1_metropolis_acceptance _ _ _ _).2 (by norm_num) (by norm_num) (by norm_num) ?_
  simp [proposed_energy, compute_total_energy, blobs_potential, totalU,
    proposal_r_vectors, propose_bodies]

/-- C6: on a rejected step, every body's current location and orientation
and the chain's `current_energy` are exactly what they were before the
step; moreover the proposal phase only ever writes the proposed pose
(`location_new`, `orientation_new`), never the current pose. -/
theorem C6_reject_preserves_state (p : Params) (draws : ℕ → Vec3 × Quat) (u : ℝ)
    (s : ChainState)
    (hrej : ¬ u < Real.exp (-(proposed_energy p draws s - s.current_energy) / p.kT)) :
    (mcmcStep p draws u s).bodies.map (fun b => (b.location, b.orientation)) =
        s.bodies.map (fun b => (b.location, b.orientation)) ∧
      (mcmcStep p draws u s).current_energy = s.current_energy ∧
      ∀ (i0 : ℕ) (bs : List Body),
        (propose_bodies draws i0 bs).map (fun b => (b.location, b.orientation)) =
          bs.map (fun b => (b.location, b.orientation)) := by
  rw [mcmcStep_reject p draws u s hrej]
  exact ⟨propose_preserves_pose draws 0 s.bodies, rfl, propose_preserves_pose draws⟩

/-- Concrete parameters for the single-body scenarios: `kT = 1`, no
periodicity, all repulsion strengths zero, `weight = 1`, `blob_radius = 1`. -/
def pOne : Params :=
  { kT := 1, Lx := 0, Ly := 0, debye_length_wall := 1, eps_wall := 0,
    debye_length := 1, eps := 0, weight := 1, blob_radius := 1 }

/-- A single body with one blob at its center, sitting at height 2. -/
def bodyOne : Body :=
  { ref_config := [⟨0, 0, 0⟩], location := ⟨0, 0, 2⟩, orientation := ⟨1, 0, 0, 0⟩,
    location_new := ⟨0, 0, 2⟩, orientation_new := ⟨1, 0, 0, 0⟩ }

/-- Chain state for the single-body scenarios (energy of the current pose
is `weight * 2 = 2`). -/
def sOne : ChainState :=
  { bodies := [bodyOne], sample_r_vectors := [⟨0, 0, 2⟩], current_energy := 2,
    accepted_moves := 0 }

/-- Draws that push the body up by one unit with no rotation. -/
def drawsUp : ℕ → Vec3 × Quat := fun _ => (⟨0, 0, 1⟩, ⟨1, 0, 0, 0⟩)

/-- Draws that leave the body in place. -/
def drawsStay : ℕ → Vec3 × Quat := fun _ => (⟨0, 0, 0⟩, ⟨1, 0, 0, 0⟩)

theorem proposal_buf_up :
    proposal_r_vectors (propose_bodies drawsUp 0 sOne.bodies) = [⟨0, 0, 3⟩] := by
  simp only [sOne, propose_bodies, proposal_r_vectors, drawsUp, bodyOne,
    Body.get_r_vectors, List.map_cons, List.map_nil, rotate, Vec3.add_def,
    Quat.mul_def, List.append_nil]
  norm_num [Vec3.mk.injEq]

theorem proposal_buf_stay :
    proposal_r_vectors (propose_bodies drawsStay 0 sOne.bodies) = [⟨0, 0, 2⟩] := by
  simp only [sOne, propose_bodies, proposal_r_vectors, drawsStay, bodyOne,
    Body.get_r_vectors, List.map_cons, List.map_nil, rotate, Vec3.add_def,
    Quat.mul_def, List.append_nil]
  norm_num [Vec3.mk.injEq]

theorem energy_blob3 : compute_total_energy pOne [⟨0, 0, 3⟩] = 3 := by
  norm_num [compute_total_energy, blobs_potential, totalU, Finset.sum_range_succ,
    Finset.sum_range_zero, potential_from_position_blobs, one_blob_potential,
    pair_term, pOne]

theorem energy_blob2 : compute_total_energy pOne [⟨0, 0, 2⟩] = 2 := by
  norm_num [compute_total_energy, blobs_potential, totalU, Finset.sum_range_succ,
    Finset.sum_range_zero, potential_from_position_blobs, one_blob_potential,
    pair_term, pOne]

theorem proposedE_up : proposed_energy pOne drawsUp sOne = 3 := by
  rw [proposed_energy, proposal_buf_up]
  exact energy_blob3

theorem proposedE_stay : proposed_energy pOne drawsStay sOne = 2 := by
  rw [proposed_energy, proposal_buf_stay]
  exact energy_blob2

theorem exp_neg_one_lt_half : Real.exp (-1) < 1 / 2 := by
  have hmul : Real.exp (-1) * Real.exp 1 = 1 := by
    rw [← Real.exp_add]
    norm_num
  have h2 : (2 : ℝ) < Real.exp 1 := lt_trans (by norm_num) Real.exp_one_gt_d9
  nlinarith [Real.exp_pos (-1)]

theorem reject_up :
    ¬ (1 / 2 : ℝ) < Real.exp (-(proposed_energy pOne drawsUp sOne - sOne.current_energy) / pOne.kT) := by
  rw [proposedE_up]
  have harg : -((3 : ℝ) - sOne.current_energy) / pOne.kT = -1 := by
    norm_num [sOne, pOne]
  rw [harg]
  exact not_lt.mpr exp_neg_one_lt_half.le

theorem C6_witness :
    (mcmcStep pOne drawsUp (1 / 2) sOne).bodies.map (fun b => (b.location, b.orientation)) =
        sOne.bodies.map (fun b => (b.location, b.orientation)) ∧
      (mcmcStep pOne drawsUp (1 / 2) sOne).current_energy = sOne.current_energy ∧
      ∀ (i0 : ℕ) (bs : List Body),
        (propose_bodies drawsUp i0 bs).map (fun b => (b.location, b.orientation)) =
          bs.map (fun b => (b.location, b.orientation)) :=
  C6_reject_preserves_state pOne drawsUp (1 / 2) sOne reject_up

/-- C7 counterexample: a concrete rejected step after which the flat blob
buffer holds the rejected proposed coordinate `(0,0,3)` while the bodies'
current pose yields `(0,0,2)` — the buffer is not in sync with the current
pose at the end of a rejected step. -/
theorem C7_counterexample :
    ¬ ((mcmcStep pOne drawsUp (1 / 2) sOne).sample_r_vectors =
        get_blobs_r_vectors (mcmcStep pOne drawsUp (1 / 2) sOne).bodies) := by
  rw [mcmcStep_reject pOne drawsUp (1 / 2) sOne reject_up]
  have hcur : get_blobs_r_vectors (propose_bodies drawsUp 0 sOne.bodies) = [⟨0, 0, 2⟩] := by
    simp only [sOne, propose_bodies, get_blobs_r_vectors, drawsUp, bodyOne,
      Body.get_r_vectors, List.map_cons, List.map_nil, rotate, Vec3.add_def,
      List.append_nil]
    norm_num [Vec3.mk.injEq]
  simp only [proposal_buf_up, hcur]
  intro h
  norm_num [Vec3.mk.injEq] at h

/-- C7 (amended): at the end of every *accepted* MCMC step the flat blob
buffer equals the lab-frame blob positions computed from every body's
current (just committed) location and orientation.  (After a rejected step
the buffer instead retains the rejected proposed coordinates; it is
recomputed wholesale from the next proposal before any further energy
evaluation.) -/
theorem C7_accepted_buffer_sync (p : Params) (draws : ℕ → Vec3 × Quat) (u : ℝ)
    (s : ChainState)
    (hacc : u < Real.exp (-(proposed_energy p draws s - s.current_energy) / p.kT)) :
    (mcmcStep p draws u s).sample_r_vectors =
      get_blobs_r_vectors (mcmcStep p draws u s).bodies := by
  rw [mcmcStep_accept p draws u s hacc]
  exact (get_blobs_commit (propose_bodies draws 0 s.bodies)).symm

theorem C7_witness :
    (mcmcStep pOne drawsStay (1 / 2) sOne).sample_r_vectors =
      get_blobs_r_vectors (mcmcStep pOne drawsStay (1 / 2) sOne).bodies := by
  apply C7_accepted_buffer_sync
  rw [proposedE_stay]
  have harg : -((2 : ℝ) - sOne.current_energy) / pOne.kT = 0 := by
    simp [sOne, pOne]
  rw [harg, Real.exp_zero]
  norm_num

theorem sgn_of_pos {r : ℝ} (hr : 0 < r) : sgn r = 1 := by
  rw [sgn, if_pos hr, if_neg (not_lt.mpr hr.le)]
  norm_num

theorem sgn_of_neg {r : ℝ} (hr : r < 0) : sgn r = -1 := by
  rw [sgn, if_neg (not_lt.mpr hr.le), if_pos hr]
  norm_num

theorem sgn_zero : sgn 0 = 0 := by
  rw [sgn]
  norm_num

/-- C5: the kernel's minimum-image wrap.  For a positive periodic length
`L`, the wrapped displacement differs from the original by an integer
multiple of `L` and has magnitude at most `L/2`; a zero or negative
periodic length leaves the displacement unchanged (wrapping disabled); and
the pair displacement's z component is never wrapped. -/
theorem C5_minimum_image_wrap (L r : ℝ) :
    (0 < L → (∃ k : ℤ, r - wrap L r = k * L) ∧ |wrap L r| ≤ L / 2) ∧
      (L ≤ 0 → wrap L r = r) ∧
      (∀ (p : Params) (xf : ℕ → Vec3) (i j : ℕ),
        pair_term p xf i j =
          blob_blob_potential p (wrap p.Lx ((xf i).x - (xf j).x))
            (wrap p.Ly ((xf i).y - (xf j).y)) ((xf i).z - (xf j).z) i j) := by
  refine ⟨fun hL => ?_, fun hL => ?_, fun p xf i j => rfl⟩
  · have hwrap : wrap L r = r - (trunc (r / L + 0.5 * sgn r) : ℝ) * L := by
      rw [wrap, if_pos hL]
    refine ⟨⟨trunc (r / L + 0.5 * sgn r), by rw [hwrap]; ring⟩, ?_⟩
    have hd : r / L * L = r := div_mul_cancel₀ r (ne_of_gt hL)
    rcases lt_trichotomy r 0 with hr | hr | hr
    · have harg : r / L + 0.5 * sgn r = r / L - 0.5 := by
        rw [sgn_of_neg hr]; ring
      have hneg : r / L - 0.5 < 0 := by
        have : r / L < 0 := div_neg_of_neg_of_pos hr hL
        linarith
      have hm : trunc (r / L + 0.5 * sgn r) = ⌈r / L - 0.5⌉ := by
        rw [harg, trunc, if_neg (not_le.mpr hneg)]
      have h1 : (r / L - 0.5 : ℝ) ≤ (⌈r / L - 0.5⌉ : ℝ) := Int.le_ceil _
      have h2 : ((⌈r / L - 0.5⌉ : ℤ) : ℝ) < r / L - 0.5 + 1 := Int.ceil_lt_add_one _
      rw [hwrap, hm, abs_le]
      constructor
      · nlinarith [mul_lt_mul_of_pos_right h2 hL]
      · nlinarith [mul_le_mul_of_nonneg_right h1 hL.le]
    · subst hr
      have harg : (0 : ℝ) / L + 0.5 * sgn 0 = 0 := by
        rw [sgn_zero]
        norm_num
      have hm : trunc ((0 : ℝ) / L + 0.5 * sgn 0) = 0 := by
        rw [harg, trunc, if_pos le_rfl, Int.floor_zero]
      rw [hwrap, hm]
      simp
      linarith
    · have harg : r / L + 0.5 * sgn r = r / L + 0.5 := by
        rw [sgn_of_pos hr]; ring
      have hpos : (0 : ℝ) ≤ r / L + 0.5 := by
        have : 0 < r / L := div_pos hr hL
        linarith
      have hm : trunc (r / L + 0.5 * sgn r) = ⌊r / L + 0.5⌋ := by
        rw [harg, trunc, if_pos hpos]
      have h1 : ((⌊r / L + 0.5⌋ : ℤ) : ℝ) ≤ r / L + 0.5 := Int.floor_le _
      have h2 : (r / L + 0.5 : ℝ) < (⌊r / L + 0.5⌋ : ℝ) + 1 := Int.lt_floor_add_one _
      rw [hwrap, hm, abs_le]
      constructor
      · nlinarith [mul_le_mul_of_nonneg_right h1 hL.le]
      · nlinarith [mul_lt_mul_of_pos_right h2 hL]
  · rw [wrap, if_neg (not_lt.mpr hL)]

theorem C5_witness :
    wrap 2 3 = -1 ∧ (∃ k : ℤ, (3 : ℝ) - wrap 2 3 = k * 2) ∧ |wrap 2 3| ≤ 2 / 2 ∧
      wrap (-1) 3 = 3 := by
  have hmain := C5_minimum_image_wrap 2 3
  have heval : wrap 2 3 = -1 := by
    rw [wrap, if_pos (by norm_num : (0 : ℝ) < 2)]
    have hs : sgn 3 = 1 := sgn_of_pos (by norm_num)
    rw [hs]
    have harg : (3 : ℝ) / 2 + 0.5 * 1 = ((2 : ℤ) : ℝ) := by norm_num
    rw [harg]
    have ht : trunc ((2 : ℤ) : ℝ) = 2 := by
      rw [trunc, if_pos (by norm_num), Int.floor_intCast]
    rw [ht]
    norm_num
  exact ⟨heval, (hmain.1 (by norm_num)).1, (hmain.1 (by norm_num)).2,
    (C5_minimum_image_wrap (-1) 3).2.1 (by norm_num)⟩

theorem trunc_neg (v : ℝ) : trunc (-v) = -trunc v := by
  rcases lt_trichotomy v 0 with h | h | h
  · rw [trunc, trunc, if_neg (not_le.mpr h), if_pos (by linarith), Int.floor_neg]
  · subst h
    simp [trunc]
  · rw [trunc, trunc, if_pos h.le, if_neg (by linarith), Int.ceil_neg]

theorem sgn_neg_eq (v : ℝ) : sgn (-v) = -sgn v := by
  rcases lt_trichotomy v 0 with h | h | h
  · rw [sgn_of_neg h, sgn_of_pos (by linarith)]
    norm_num
  · subst h
    rw [neg_zero, sgn_zero, neg_zero]
  · rw [sgn_of_pos h, sgn_of_neg (by linarith)]

theorem wrap_neg (L v : ℝ) : wrap L (-v) = -wrap L v := by
  by_cases hL : 0 < L
  · rw [wrap, wrap, if_pos hL, if_pos hL]
    rw [show -v / L + 0.5 * sgn (-v) = -(v / L + 0.5 * sgn v) by rw [sgn_neg_eq]; ring]
    rw [trunc_neg]
    push_cast
    ring
  · rw [wrap, wrap, if_neg hL, if_neg hL]

/-- The wrapped pair distance of the spec, `r = |d'|` with the x and y
components minimum-image wrapped and z unwrapped. -/
noncomputable def wrapped_dist (p : Params) (a b : Vec3) : ℝ :=
  Real.sqrt (wrap p.Lx (a.x - b.x) * wrap p.Lx (a.x - b.x) +
    wrap p.Ly (a.y - b.y) * wrap p.Ly (a.y - b.y) + (a.z - b.z) * (a.z - b.z))

/-- The spec's blob-blob pair energy for two distinct blobs:
`repulsion_strength * exp(-r/debye_length) / r` at the wrapped distance. -/
noncomputable def pair_energy (p : Params) (a b : Vec3) : ℝ :=
  p.eps * Real.exp (-(wrapped_dist p a b) / p.debye_length) / wrapped_dist p a b

theorem wrapped_dist_symm (p : Params) (a b : Vec3) :
    wrapped_dist p b a = wrapped_dist p a b := by
  rw [wrapped_dist, wrapped_dist,
    show b.x - a.x = -(a.x - b.x) by ring,
    show b.y - a.y = -(a.y - b.y) by ring,
    show b.z - a.z = -(a.z - b.z) by ring,
    wrap_neg, wrap_neg]
  congr 1
  ring

theorem pair_energy_symm (p : Params) (a b : Vec3) :
    pair_energy p b a = pair_energy p a b := by
  rw [pair_energy, pair_energy, wrapped_dist_symm]

theorem pair_term_eq_pair_energy (p : Params) (xf : ℕ → Vec3) (i j : ℕ) (h : i ≠ j) :
    pair_term p xf i j = pair_energy p (xf i) (xf j) := by
  rw [pair_term, blob_blob_potential, if_pos h, pair_energy, wrapped_dist]

/-- The unordered pairs `{(i, j) | i < j < n}`, each counted once. -/
def upperPairs (n : ℕ) : Finset (ℕ × ℕ) :=
  (Finset.range n ×ˢ Finset.range n).filter fun q => q.1 < q.2

theorem sum_Ico_eq_sum_upperPairs (n : ℕ) (f : ℕ → ℕ → ℝ) :
    ∑ i ∈ Finset.range n, ∑ j ∈ Finset.Ico (i + 1) n, f i j =
      ∑ q ∈ upperPairs n, f q.1 q.2 := by
  rw [upperPairs, Finset.sum_filter, Finset.sum_product]
  apply Finset.sum_congr rfl
  intro i _
  rw [← Finset.sum_filter]
  apply Finset.sum_congr ?_ (fun _ _ => rfl)
  ext j
  simp only [Finset.mem_filter, Finset.mem_range, Finset.mem_Ico]
  omega

theorem totalU_eq_spec_fn (p : Params) (n : ℕ) (xf : ℕ → Vec3)
    (h : ∀ k, k < n → p.blob_radius < (xf k).z) :
    totalU p n xf =
      (∑ k ∈ Finset.range n, one_blob_potential p (xf k).x (xf k).y (xf k).z) +
        ∑ q ∈ upperPairs n, pair_energy p (xf q.1) (xf q.2) := by
  rw [totalU]
  have hslot : ∀ i ∈ Finset.range n,
      potential_from_position_blobs p n xf i =
        one_blob_potential p (xf i).x (xf i).y (xf i).z +
          ∑ j ∈ Finset.Ico (i + 1) n, pair_energy p (xf i) (xf j) := by
    intro i hi
    rw [potential_from_position_blobs, if_pos (h i (Finset.mem_range.mp hi))]
    congr 1
    apply Finset.sum_congr rfl
    intro j hj
    exact pair_term_eq_pair_energy p xf i j (by have := Finset.mem_Ico.mp hj; omega)
  rw [Finset.sum_congr rfl hslot, Finset.sum_add_distrib,
    sum_Ico_eq_sum_upperPairs n (fun i j => pair_energy p (xf i) (xf j))]

/-- The spec's per-blob one-body term: gravity plus wall repulsion above
the wall, the steep penalty at or below it. -/
noncomputable def spec_one_blob_term (p : Params) (v : Vec3) : ℝ :=
  if p.blob_radius < v.z then one_blob_potential p v.x v.y v.z
  else 1e5 * (-(v.z - p.blob_radius) + 1)

/-- The spec's stated total: the sum over all blobs of the one-blob term
plus the sum over unordered pairs of the blob-blob term, each unordered
pair counted exactly once. -/
noncomputable def spec_total_energy (p : Params) (x : List Vec3) : ℝ :=
  (∑ k ∈ Finset.range x.length, spec_one_blob_term p (x.getD k default)) +
    ∑ q ∈ upperPairs x.length, pair_energy p (x.getD q.1 default) (x.getD q.2 default)

/-- Parameters for the two-blob scenarios: unit repulsion strength and
Debye length, zero weight and wall repulsion, `blob_radius = 1`, no
periodicity. -/
def pPair : Params :=
  { kT := 1, Lx := 0, Ly := 0, debye_length_wall := 1, eps_wall := 0,
    debye_length := 1, eps := 1, weight := 0, blob_radius := 1 }

/-- A two-blob buffer whose first blob sits at the wall plane's far side
(`z = 0 ≤ blob_radius`) and whose second blob is above the wall. -/
def xLow : List Vec3 := [⟨0, 0, 0⟩, ⟨0, 0, 2⟩]

theorem sqrt_four : Real.sqrt 4 = 2 := by
  rw [show (4 : ℝ) = 2 ^ 2 by norm_num]
  exact Real.sqrt_sq (by norm_num)

theorem pair_energy_low : pair_energy pPair ⟨0, 0, 0⟩ ⟨0, 0, 2⟩ = Real.exp (-2) / 2 := by
  norm_num [pair_energy, wrapped_dist, wrap, pPair, sqrt_four]

theorem pair_energy_high : pair_energy pPair ⟨0, 0, 2⟩ ⟨0, 0, 0⟩ = Real.exp (-2) / 2 := by
  norm_num [pair_energy, wrapped_dist, wrap, pPair, sqrt_four]

theorem blobs_potential_xLow : blobs_potential pPair xLow = 200000 := by
  norm_num [blobs_potential, totalU, Finset.sum_range_succ, Finset.sum_range_zero,
    potential_from_position_blobs, one_blob_potential, pair_term, xLow, pPair,
    Finset.Ico_self]

theorem upperPairs_two : upperPairs 2 = {(0, 1)} := by decide

theorem spec_total_xLow : spec_total_energy pPair xLow = 200000 + Real.exp (-2) / 2 := by
  have hone : ∑ k ∈ Finset.range 2, spec_one_blob_term pPair (xLow.getD k default) = 200000 := by
    norm_num [Finset.sum_range_succ, Finset.sum_range_zero, spec_one_blob_term,
      one_blob_potential, xLow, pPair]
  rw [spec_total_energy, show xLow.length = 2 from rfl, upperPairs_two,
    Finset.sum_singleton, hone]
  norm_num [xLow, pair_energy_low]

/-- C3 counterexample: on a buffer whose first blob is at or below the
wall, the kernel total (which skips that blob's pair loop entirely)
differs from the spec's one-blob-plus-all-unordered-pairs decomposition:
the kernel drops the pair term of the behind-wall blob with the blob above
it. -/
theorem C3_counterexample : blobs_potential pPair xLow ≠ spec_total_energy pPair xLow := by
  rw [blobs_potential_xLow, spec_total_xLow]
  intro h
  have := Real.exp_pos (-2)
  linarith

/-- C3 (amended): for every buffer in which every blob lies strictly above
the wall (`z > blob_radius`), the kernel total equals the sum over all
blobs of the one-blob (gravity plus wall) term plus the sum over unordered
pairs of the blob-blob term, each unordered pair counted exactly once (no
½ factor). -/
theorem C3_total_energy_decomposition (p : Params) (x : List Vec3)
    (h : ∀ v ∈ x, p.blob_radius < v.z) :
    blobs_potential p x = spec_total_energy p x := by
  have hk : ∀ k, k < x.length → p.blob_radius < ((fun m => x.getD m default) k).z := by
    intro k hkn
    have hmem : x.getD k default ∈ x := by
      rw [List.getD_eq_getElem x default hkn]
      exact List.getElem_mem hkn
    exact h _ hmem
  rw [blobs_potential, totalU_eq_spec_fn p _ _ hk, spec_total_energy]
  congr 1
  apply Finset.sum_congr rfl
  intro k hkr
  rw [spec_one_blob_term, if_pos (hk k (Finset.mem_range.mp hkr))]

theorem C3_witness :
    blobs_potential pPair [⟨0, 0, 2⟩] = spec_total_energy pPair [⟨0, 0, 2⟩] := by
  apply C3_total_energy_decomposition
  intro v hv
  rw [List.mem_singleton] at hv
  subst hv
  norm_num [pPair]

theorem getD_set_self (l : List Vec3) (i : ℕ) (a d : Vec3) (h : i < l.length) :
    (l.set i a).getD i d = a := by
  induction l generalizing i with
  | nil => simp at h
  | cons b t ih =>
    cases i with
    | zero => rfl
    | succ m =>
      simp only [List.set_cons_succ, List.getD_cons_succ]
      exact ih m (by simpa using h)

theorem getD_set_other (l : List Vec3) (i j : ℕ) (a d : Vec3) (h : i ≠ j) :
    (l.set i a).getD j d = l.getD j d := by
  induction l generalizing i j with
  | nil => cases i <;> rfl
  | cons b t ih =>
    cases i with
    | zero =>
      cases j with
      | zero => exact absurd rfl h
      | succ m => rfl
    | succ m =>
      cases j with
      | zero => rfl
      | succ k =>
        simp only [List.set_cons_succ, List.getD_cons_succ]
        exact ih m k (fun he => h (by rw [he]))

/-- Exchanging the coordinates of blobs `i` and `j` in the input buffer. -/
def swap_blobs (x : List Vec3) (i j : ℕ) : List Vec3 :=
  (x.set i (x.getD j default)).set j (x.getD i default)

theorem length_swap_blobs (x : List Vec3) (i j : ℕ) :
    (swap_blobs x i j).length = x.length := by
  simp [swap_blobs]

theorem getD_swap_blobs (x : List Vec3) (i j k : ℕ) (hi : i < x.length) (hj : j < x.length) :
    (swap_blobs x i j).getD k default = x.getD (Equiv.swap i j k) default := by
  rcases eq_or_ne k j with rfl | hkj
  · rw [swap_blobs, getD_set_self _ _ _ _ (by simpa using hj), Equiv.swap_apply_right]
  · rw [swap_blobs, getD_set_other _ _ _ _ _ (Ne.symm hkj)]
    rcases eq_or_ne k i with rfl | hki
    · rw [getD_set_self _ _ _ _ hi, Equiv.swap_apply_left]
    · rw [getD_set_other _ _ _ _ _ (Ne.symm hki), Equiv.swap_apply_of_ne_of_ne hki hkj]

/-- The ordered pairs of distinct indices below `n`. -/
def offPairs (n : ℕ) : Finset (ℕ × ℕ) :=
  (Finset.range n ×ˢ Finset.range n).filter fun q => q.1 ≠ q.2

theorem sum_offPairs_eq_two_mul (n : ℕ) (g : ℕ → ℕ → ℝ) (hg : ∀ a b, g a b = g b a) :
    ∑ q ∈ offPairs n, g q.1 q.2 = 2 * ∑ q ∈ upperPairs n, g q.1 q.2 := by
  rw [← Finset.sum_filter_add_sum_filter_not (offPairs n) (fun q => q.1 < q.2)]
  have h1 : (offPairs n).filter (fun q => q.1 < q.2) = upperPairs n := by
    ext q
    simp only [offPairs, upperPairs, Finset.mem_filter, Finset.mem_product, Finset.mem_range]
    omega
  have h2 : ∑ q ∈ (offPairs n).filter (fun q => ¬ q.1 < q.2), g q.1 q.2 =
      ∑ q ∈ upperPairs n, g q.1 q.2 := by
    apply Finset.sum_nbij' Prod.swap Prod.swap
    · intro q hq
      simp only [offPairs, upperPairs, Finset.mem_filter, Finset.mem_product,
        Finset.mem_range, Prod.fst_swap, Prod.snd_swap] at hq ⊢
      omega
    · intro q hq
      simp only [offPairs, upperPairs, Finset.mem_filter, Finset.mem_product,
        Finset.mem_range, Prod.fst_swap, Prod.snd_swap] at hq ⊢
      omega
    · intro q _
      simp
    · intro q _
      simp
    · intro q _
      exact hg q.1 q.2
  rw [h1, h2]
  ring

theorem sum_offPairs_comp (n : ℕ) (g : ℕ → ℕ → ℝ) (σ : Equiv.Perm ℕ)
    (hσ : ∀ k, k < n ↔ σ k < n) :
    ∑ q ∈ offPairs n, g (σ q.1) (σ q.2) = ∑ q ∈ offPairs n, g q.1 q.2 := by
  apply Finset.sum_nbij' (fun q => (σ q.1, σ q.2)) (fun q => (σ.symm q.1, σ.symm q.2))
  · intro q hq
    simp only [offPairs, Finset.mem_filter, Finset.mem_product, Finset.mem_range] at hq ⊢
    exact ⟨⟨(hσ q.1).mp hq.1.1, (hσ q.2).mp hq.1.2⟩, fun he => hq.2 (σ.injective he)⟩
  · intro q hq
    simp only [offPairs, Finset.mem_filter, Finset.mem_product, Finset.mem_range] at hq ⊢
    have hs1 := hσ (σ.symm q.1)
    have hs2 := hσ (σ.symm q.2)
    rw [Equiv.apply_symm_apply] at hs1 hs2
    exact ⟨⟨hs1.mpr hq.1.1, hs2.mpr hq.1.2⟩, fun he => hq.2 (σ.symm.injective he)⟩
  · intro q _
    simp
  · intro q _
    simp
  · intro q _
    rfl

theorem sum_upperPairs_comp (n : ℕ) (g : ℕ → ℕ → ℝ) (hg : ∀ a b, g a b = g b a)
    (σ : Equiv.Perm ℕ) (hσ : ∀ k, k < n ↔ σ k < n) :
    ∑ q ∈ upperPairs n, g (σ q.1) (σ q.2) = ∑ q ∈ upperPairs n, g q.1 q.2 := by
  have h1 := sum_offPairs_eq_two_mul n (fun a b => g (σ a) (σ b)) (fun a b => hg _ _)
  have h2 := sum_offPairs_eq_two_mul n g hg
  have h3 := sum_offPairs_comp n g σ hσ
  simp only [] at h1 h3
  linarith

theorem swap_xLow : swap_blobs xLow 0 1 = [⟨0, 0, 2⟩, ⟨0, 0, 0⟩] := rfl

theorem blobs_potential_xLow_swapped :
    blobs_potential pPair [⟨0, 0, 2⟩, ⟨0, 0, 0⟩] = Real.exp (-2) / 2 + 200000 := by
  have hico : Finset.Ico 1 2 = ({1} : Finset ℕ) := by decide
  norm_num [blobs_potential, totalU, Finset.sum_range_succ, Finset.sum_range_zero,
    potential_from_position_blobs, one_blob_potential, pair_term,
    blob_blob_potential, wrap, pPair, hico, Finset.sum_singleton, Finset.Ico_self,
    sqrt_four]

/-- C4 counterexample: swapping the two blobs of a buffer whose lower-indexed
image has the behind-wall blob second changes the total energy — the pair
term is computed only when the lower-indexed blob of the pair is above the
wall, so the swap gains/loses that term. -/
theorem C4_counterexample :
    blobs_potential pPair (swap_blobs xLow 0 1) ≠ blobs_potential pPair xLow := by
  rw [swap_xLow, blobs_potential_xLow_swapped, blobs_potential_xLow]
  intro h
  have := Real.exp_pos (-2)
  linarith

/-- C4 (amended): for every buffer in which every blob lies strictly above
the wall (`z > blob_radius`), exchanging the coordinates of blobs `i ≠ j`
leaves the evaluator's total energy unchanged. -/
theorem C4_swap_invariance (p : Params) (x : List Vec3) (i j : ℕ)
    (hi : i < x.length) (hj : j < x.length) (hij : i ≠ j)
    (h : ∀ v ∈ x, p.blob_radius < v.z) :
    blobs_potential p (swap_blobs x i j) = blobs_potential p x := by
  have hk : ∀ k, k < x.length → p.blob_radius < ((fun m => x.getD m default) k).z := by
    intro k hkn
    have hmem : x.getD k default ∈ x := by
      rw [List.getD_eq_getElem x default hkn]
      exact List.getElem_mem hkn
    exact h _ hmem
  have hσ : ∀ k, k < x.length ↔ Equiv.swap i j k < x.length := by
    intro k
    rcases eq_or_ne k i with rfl | hki
    · rw [Equiv.swap_apply_left]
      exact ⟨fun _ => hj, fun _ => hi⟩
    · rcases eq_or_ne k j with rfl | hkj
      · rw [Equiv.swap_apply_right]
        exact ⟨fun _ => hi, fun _ => hj⟩
      · rw [Equiv.swap_apply_of_ne_of_ne hki hkj]
  have hkσ : ∀ k, k < x.length →
      p.blob_radius < ((fun m => x.getD (Equiv.swap i j m) default) k).z := by
    intro k hkn
    exact hk _ ((hσ k).mp hkn)
  have hswap : blobs_potential p (swap_blobs x i j) =
      totalU p x.length (fun k => x.getD (Equiv.swap i j k) default) := by
    rw [blobs_potential, length_swap_blobs]
    congr 1
    funext k
    exact getD_swap_blobs x i j k hi hj
  rw [hswap, totalU_eq_spec_fn p _ _ hkσ, blobs_potential, totalU_eq_spec_fn p _ _ hk]
  congr 1
  · apply Finset.sum_nbij' (fun k => Equiv.swap i j k) (fun k => Equiv.swap i j k)
    · intro a ha
      simp only [Finset.mem_range] at ha ⊢
      exact (hσ a).mp ha
    · intro a ha
      simp only [Finset.mem_range] at ha ⊢
      exact (hσ a).mp ha
    · intro a _
      simp
    · intro a _
      simp
    · intro a _
      rfl
  · exact sum_upperPairs_comp x.length
      (fun a b => pair_energy p (x.getD a default) (x.getD b default))
      (fun a b => pair_energy_symm p (x.getD b default) (x.getD a default))
      (Equiv.swap i j) hσ

theorem C4_witness :
    blobs_potential pPair (swap_blobs [⟨0, 0, 2⟩, ⟨0, 0, 3⟩] 0 1) =
      blobs_potential pPair [⟨0, 0, 2⟩, ⟨0, 0, 3⟩] := by
  apply C4_swap_invariance pPair _ 0 1 (by norm_num) (by norm_num) (by norm_num)
  intro v hv
  rcases List.mem_cons.mp hv with rfl | hv2
  · norm_num [pPair]
  · rw [List.mem_singleton] at hv2
    subst hv2
    norm_num [pPair]

/-- C10: a blob at height `z ≤ blob_radius` contributes only the
wall-penalty value to the total: its output slot is exactly the penalty
(the pair loop over `j > i` lies inside the `z > blob_radius` branch and is
skipped), so the total is the penalty plus the other slots only. -/
theorem C10_behind_wall_slot (p : Params) (n : ℕ) (xf : ℕ → Vec3) (i : ℕ)
    (hi : i < n) (h : (xf i).z ≤ p.blob_radius) :
    potential_from_position_blobs p n xf i = 1e5 * (-((xf i).z - p.blob_radius) + 1) ∧
      totalU p n xf = 1e5 * (-((xf i).z - p.blob_radius) + 1) +
        ∑ k ∈ (Finset.range n).erase i, potential_from_position_blobs p n xf k := by
  have hslot : potential_from_position_blobs p n xf i
      = 1e5 * (-((xf i).z - p.blob_radius) + 1) := by
    rw [potential_from_position_blobs, if_neg (not_lt.mpr h)]
  refine ⟨hslot, ?_⟩
  rw [totalU, ← Finset.add_sum_erase _ _ (Finset.mem_range.mpr hi), hslot]

theorem C10_witness :
    potential_from_position_blobs pPair 2 (fun k => xLow.getD k default) 0 =
        1e5 * (-((0 : ℝ) - 1) + 1) ∧
      totalU pPair 2 (fun k => xLow.getD k default) =
        1e5 * (-((0 : ℝ) - 1) + 1) +
          ∑ k ∈ (Finset.range 2).erase 0,
            potential_from_position_blobs pPair 2 (fun m => xLow.getD m default) k :=
  C10_behind_wall_slot pPair 2 (fun k => xLow.getD k default) 0 (by norm_num)
    (by norm_num [xLow, pPair])
